import Mathlib

/-!
# aki: chunking and sequential translation pipeline (`assets/app.js`)

A shallow embedding of `chunkText`, `translateChunk`, `translateText` and
`setProgress` from `assets/app.js`, followed by the properties proved about
them.

Conventions of the embedding:

* a JavaScript string is the list of its UTF-16 code units (`Str`), each written
  as a `Char`; `length`, `slice` and `+` act on code units, so a list is an
  exact model;
* a JavaScript number that only ever holds an integer (`i`, `maxChars`,
  `text.length`, the progress percentage) is an `Int`;
* the one genuinely fractional computation, `(i / chunks.length) * 70`, is
  evaluated with IEEE-754 binary64 rounding (`f64`) in exact integer arithmetic;
* the `for` loop of `chunkText` is run with fuel, one unit per test of the loop
  condition: `none` means that the loop had not exited when the fuel ran out;
* the network is an oracle `fetch n req`, the outcome of the `n`-th call of
  `fetch` in a run.
-/

namespace Aki

/-- A JavaScript string, as the list of its code units. -/
abbrev Str := List Char

/-- `String.prototype.slice(start, end)` on integer arguments: a negative index
counts from the end, both are clamped to `[0, length]`. -/
def slice (s : Str) (start stop : Int) : Str :=
  let len : Int := s.length
  let src := if start < 0 then max (len + start) 0 else min start len
  let dst := if stop < 0 then max (len + stop) 0 else min stop len
  let span := max (dst - src) 0
  (s.drop src.toNat).take span.toNat

/-- The loop of `chunkText`:
`for (let i = 0; i < text.length; i += maxChars) chunks.push(text.slice(i, i + maxChars))`.
Each unit of fuel pays for one test of `i < text.length`. -/
def chunkLoop (text : Str) (maxChars : Int) : Nat → Int → List Str → Option (List Str)
  | 0, _, _ => none
  | fuel + 1, i, chunks =>
    if i < (text.length : Int) then
      chunkLoop text maxChars fuel (i + maxChars) (chunks ++ [slice text i (i + maxChars)])
    else some chunks

/-- `chunkText(text, maxChars = 3000)`: `some chunks` when the function returns
`chunks` within the given fuel. The body has no `throw`. -/
def chunkText (fuel : Nat) (text : Str) (maxChars : Int := 3000) : Option (List Str) :=
  chunkLoop text maxChars fuel 0 []

/-! ## JavaScript values, errors and the network -/

deriving instance DecidableEq for Except

/-- A JavaScript value, seen through what this program observes of it: whether
it is `undefined`, whether it is a string and which, and otherwise only its
truthiness and the string it concatenates as. -/
inductive JSVal where
  | undefined
  | str (s : Str)
  | other (truthy : Bool) (text : Str)
  deriving DecidableEq

/-- `ToBoolean`: `undefined` and the empty string are falsy. -/
def JSVal.truthy : JSVal → Bool
  | .undefined => false
  | .str s => !s.isEmpty
  | .other t _ => t

/-- The operator `a || b`. -/
def JSVal.or (a b : JSVal) : JSVal := if a.truthy then a else b

/-- The string a value contributes to a concatenation `'...' + v`. -/
def JSVal.toStr : JSVal → Str
  | .undefined => "undefined".toList
  | .str s => s
  | .other _ t => t

/-- A thrown value or rejection reason. -/
inductive JSError where
  /-- Made by `new Error(message)`. -/
  | error (message : Str)
  /-- Raised by the engine on reading a property of `null`. -/
  | typeError
  /-- A rejection coming from the environment (network, body parsing). -/
  | rejected (reason : Str)
  deriving DecidableEq

/-- The value produced by `resp.json()`: `null`, or any other JSON value given
by its properties (a JSON number, boolean, string or array has none of the
properties read here). -/
inductive Json where
  | null
  | obj (props : List (String × JSVal))

/-- Property access `json.key`. -/
def Json.get : Json → String → Except JSError JSVal
  | .null, _ => .error .typeError
  | .obj props, key => .ok ((props.lookup key).getD .undefined)

/-- A settled `fetch` response. `text` and `json` are the outcomes of
`await resp.text()` and `await resp.json()`. -/
structure Response where
  status : Nat
  statusText : Str
  text : Except JSError Str
  json : Except JSError Json

/-- The attribute `resp.ok`: the status is in the range 200 to 299. -/
def Response.ok (r : Response) : Bool := decide (200 ≤ r.status ∧ r.status ≤ 299)

/-- The JSON body posted to `TRANSLATION_ENDPOINT`. -/
structure Request where
  text : JSVal
  source : JSVal
  target : JSVal
  engine : JSVal
  deriving DecidableEq

/-- The argument `opts` of `translateChunk`; a missing property is `undefined`. -/
structure Opts where
  source : JSVal := .undefined
  target : JSVal := .undefined
  engine : JSVal := .undefined

/-- The globals of `config.js`; `undefined` when the global is not defined. -/
structure Config where
  DEFAULT_TARGET : JSVal := .str "mni".toList

/-- The outcome of the `n`-th call of `fetch` of a run, for each request. -/
abbrev Fetch := Nat → Request → Except JSError Response

/-! ## `translateChunk` -/

/-- The object `body` built by `translateChunk`. -/
def requestBody (cfg : Config) (chunk : Str) (opts : Opts) : Request :=
  { text := .str chunk
    source := opts.source.or (.str "en".toList)
    target := opts.target.or
      (if cfg.DEFAULT_TARGET ≠ .undefined then cfg.DEFAULT_TARGET else .str "mni".toList)
    engine := opts.engine.or (.str "mint".toList) }

/-- The template literal
`Translation API error: ${resp.status} ${resp.statusText} - ${txt}`. -/
def apiErrorMessage (status : Nat) (statusText txt : Str) : Str :=
  "Translation API error: ".toList ++ Nat.toDigits 10 status ++ " ".toList ++ statusText
    ++ " - ".toList ++ txt

/-- The expression
`json.text || json.translated_text || json.translation || json.result || ''`.
Reading a property of a parsed JSON value has no effect, so reading all four
before combining them gives what the short-circuiting `||` gives; on `null` the
first read already throws. -/
def flexibleParse (json : Json) : Except JSError JSVal := do
  let a ← json.get "text"
  let b ← json.get "translated_text"
  let c ← json.get "translation"
  let d ← json.get "result"
  pure ((((a.or b).or c).or d).or (.str []))

/-- `translateChunk(chunk, opts)`, given the outcome `net` of its one call of
`fetch`. -/
def translateChunk (cfg : Config) (net : Request → Except JSError Response) (chunk : Str)
    (opts : Opts := {}) : Except JSError JSVal :=
  match net (requestBody cfg chunk opts) with
  | .error err => .error err
  | .ok resp =>
    if !resp.ok then
      match resp.text with
      | .error err => .error err
      | .ok txt => .error (.error (apiErrorMessage resp.status resp.statusText txt))
    else
      match resp.json with
      | .error err => .error err
      | .ok json => flexibleParse json

/-! ## Double-precision arithmetic of the progress computation -/

/-- The integer nearest to `a / b`, a tie going to the even one. -/
def roundHalfEven (a b : Nat) : Nat :=
  let q := a / b
  let r := a % b
  if 2 * r < b then q else if b < 2 * r then q + 1 else if q % 2 = 0 then q else q + 1

/-- Halving count: `ilog2 fuel n` is `⌊log₂ n⌋` once `fuel ≥ n`. -/
def ilog2 : Nat → Nat → Nat
  | 0, _ => 0
  | fuel + 1, n => if 2 ≤ n then ilog2 fuel (n / 2) + 1 else 0

/-- The exponent `e` with `2 ^ e ≤ a / b < 2 ^ (e + 1)`, for positive `a`, `b`. -/
def binade (a b : Nat) : Int :=
  let d : Int := (ilog2 a a : Int) - (ilog2 b b : Int)
  if (if 0 ≤ d then b * 2 ^ d.toNat ≤ a else b ≤ a * 2 ^ (-d).toNat) then d else d - 1

/-- A finite non-negative double, as the exact fraction `num / den`. -/
structure F64 where
  num : Nat
  den : Nat
  deriving DecidableEq

/-- The double nearest to the exact quotient `a / b` (`b > 0`): round to nearest
with 53 significant bits, ties to even. Exact for every result in the normal range
of binary64, which holds all the values met in the progress computation. -/
def f64 (a b : Nat) : F64 :=
  if a = 0 then ⟨0, 1⟩
  else
    let e := binade a b
    if e ≤ 52 then
      let s := (52 - e).toNat
      ⟨roundHalfEven (a * 2 ^ s) b, 2 ^ s⟩
    else
      let s := (e - 52).toNat
      ⟨roundHalfEven a (b * 2 ^ s) * 2 ^ s, 1⟩

/-- The operator `/` on two integer-valued doubles. -/
def F64.div (a b : Nat) : F64 := f64 a b

/-- The operator `*` of a double and an integer-valued double. -/
def F64.mul (x : F64) (k : Nat) : F64 := f64 (x.num * k) x.den

/-- `Math.round(x)` for `x ≥ 0`: the nearest integer, a tie going up. -/
def F64.round (x : F64) : Int := ((2 * x.num + x.den) / (2 * x.den) : Nat)

/-! ## `setProgress` and `translateText` -/

/-- The width in percent that `setProgress(p)` gives the bar:
`Math.max(0, Math.min(100, p))`. -/
def setProgress (p : Int) : Int := max 0 (min 100 p)

/-- The argument `20 + Math.round((i / chunks.length) * 70)` of `setProgress` for
chunk `i` of `n`. -/
def progressArg (i n : Nat) : Int := 20 + ((F64.div i n).mul 70).round

/-- The status text `Translating chunk ${i+1}/${chunks.length}...`. -/
def statusMessage (i n : Nat) : Str :=
  "Translating chunk ".toList ++ Nat.toDigits 10 (i + 1) ++ "/".toList ++ Nat.toDigits 10 n
    ++ "...".toList

/-- What a run writes to the page and sends to the network, in order. -/
structure Page where
  bar : List Int := []
  status : List Str := []
  requests : List Request := []
  deriving DecidableEq

/-- The update `translated += (translated ? '\n' : '') + out`. -/
def appendLine (translated : Str) (out : JSVal) : Str :=
  translated ++ ((if translated ≠ [] then "\n".toList else []) ++ out.toStr)

/-- The loop of `translateText` from index `i` on, over the chunks still to do;
`n` is `chunks.length`. -/
def translateLoop (cfg : Config) (fetch : Fetch) (engine : JSVal) (n : Nat) :
    List Str → Nat → Str → Page → Page × Except JSError Str
  | [], _, translated, pg => (pg, .ok translated)
  | chunk :: rest, i, translated, pg =>
    let pg : Page :=
      { bar := pg.bar ++ [setProgress (progressArg i n)]
        status := pg.status ++ [statusMessage i n]
        requests := pg.requests ++ [requestBody cfg chunk { engine := engine }] }
    match translateChunk cfg (fetch i) chunk { engine := engine } with
    | .error err => (pg, .error err)
    | .ok out =>
      translateLoop cfg fetch engine n rest (i + 1) (appendLine translated out) pg

/-- `translateText(fullText, engine)`: the page writes and requests of the run,
with the returned string or the thrown error; `none` when `chunkText` had not
returned within the fuel. -/
def translateText (fuel : Nat) (cfg : Config) (fetch : Fetch) (fullText : Str)
    (engine : JSVal) : Option (Page × Except JSError Str) :=
  match chunkText fuel fullText 3000 with
  | none => none
  | some chunks =>
    match translateLoop cfg fetch engine chunks.length chunks 0 [] {} with
    | (pg, .error err) => some (pg, .error err)
    | (pg, .ok translated) =>
      some ({ pg with
              bar := pg.bar ++ [setProgress 100]
              status := pg.status ++ ["Translation complete".toList] }, .ok translated)

/-! ## Reference definitions, in the words of the specification -/

/-- Spec: the first non-empty candidate, in priority order; the empty string when
there is none. `none` is an absent field. -/
def firstNonEmpty : List (Option Str) → Str
  | [] => []
  | none :: rest => firstNonEmpty rest
  | some s :: rest => if s ≠ [] then s else firstNonEmpty rest

/-- The value read from a field that is absent (`none`) or holds a string. -/
def fieldValue : Option Str → JSVal
  | none => .undefined
  | some s => .str s

/-- Spec: `join("\n", parts)`, one newline between each consecutive pair. -/
def joinLines (parts : List Str) : Str := List.intercalate "\n".toList parts

/-- Spec: `20 + round((i / n) * 70)` in exact arithmetic, a tie rounding up. -/
def specProgress (i n : Nat) : Int := 20 + ((2 * (70 * i) + n) / (2 * n) : Nat)

/-- Spec: `(i / n) * 70` lies exactly half-way between two integers, that is,
`70 * i / n + 1 / 2` is an integer. -/
def isTie (i n : Nat) : Prop := (2 * (70 * i) + n) % (2 * n) = 0

/-- The exact value of a double. -/
def F64.val (x : F64) : ℚ := (x.num : ℚ) / (x.den : ℚ)

/-! ## Sample endpoints -/

/-- An endpoint with one fixed answer. -/
def always (resp : Response) : Request → Except JSError Response := fun _ => .ok resp

/-- An endpoint that answers `200` with `{ "text": <the text it was sent> }`. -/
def echoFetch : Fetch := fun _ req =>
  .ok { status := 200, statusText := "OK".toList, text := .ok [],
        json := .ok (.obj [("text", req.text)]) }

/-- An endpoint that answers the first request with `{}` and every later one with
`{ "text": "b" }`. -/
def blankThenB : Fetch := fun n _ =>
  .ok { status := 200, statusText := "OK".toList, text := .ok [],
        json := .ok (.obj (if n = 0 then [] else [("text", .str "b".toList)])) }

/-- An endpoint that echoes, except that its second answer is
`500 Internal Server Error` with the body `rate limited`. -/
def failSecond : Fetch := fun n req =>
  if n = 1 then
    .ok { status := 500, statusText := "Internal Server Error".toList,
          text := .ok "rate limited".toList, json := .error (.rejected "not JSON".toList) }
  else echoFetch n req

/-! ## `chunkText` -/

theorem slice_window (T : Str) (i m : Nat) :
    slice T (i : Int) ((i : Int) + (m : Int)) = (T.drop i).take m := by
  unfold slice
  have h1 : ¬ ((i : Int) < 0) := by omega
  have h2 : ¬ ((i : Int) + (m : Int) < 0) := by omega
  simp only [h1, h2, if_false]
  rcases Nat.lt_or_ge T.length i with h | h
  · have e1 : (min (i : Int) (T.length : Int)).toNat = T.length := by omega
    rw [e1, List.drop_eq_nil_of_le (Nat.le_refl _), List.drop_eq_nil_of_le (Nat.le_of_lt h)]
    simp
  · have e1 : (min (i : Int) (T.length : Int)).toNat = i := by omega
    rw [e1, List.take_eq_take, List.length_drop]
    omega

theorem ceil_step (len i m : Nat) (hm : 0 < m) (hi : i < len) :
    (len - i + m - 1) / m = (len - (i + m) + m - 1) / m + 1 := by
  rcases Nat.lt_or_ge (len - i) m with h | h
  · have e1 : (len - (i + m) + m - 1) / m = 0 := Nat.div_eq_of_lt (by omega)
    have e2 : (len - i + m - 1) / m = 1 := by
      apply Nat.div_eq_of_lt_le <;> omega
    omega
  · have e : len - i + m - 1 = (len - (i + m) + m - 1) + m := by omega
    rw [e, Nat.add_div_right _ hm]

/-- With enough fuel the loop of `chunkText` exits, having appended to `acc` a
list of chunks that covers the text from offset `i` on. -/
theorem chunkLoop_spec (T : Str) (m : Nat) (hm : 0 < m) :
    ∀ (fuel i : Nat) (acc : List Str), T.length - i < fuel →
      ∃ R : List Str, chunkLoop T (m : Int) fuel (i : Int) acc = some (acc ++ R)
        ∧ R.flatten = T.drop i
        ∧ (∀ c ∈ R, 0 < c.length ∧ c.length ≤ m)
        ∧ R.length = (T.length - i + m - 1) / m
        ∧ (∀ j, j < R.length → R[j]? = some ((T.drop (i + j * m)).take m)) := by
  intro fuel
  induction fuel with
  | zero =>
    intro i acc h
    exact absurd h (by omega)
  | succ fuel ih =>
    intro i acc h
    unfold chunkLoop
    by_cases hi : (i : Int) < (T.length : Int)
    · have hi' : i < T.length := by omega
      obtain ⟨R, hR, hflat, hlen, hcount, hidx⟩ :=
        ih (i + m) (acc ++ [slice T (i : Int) ((i : Int) + (m : Int))]) (by omega)
      refine ⟨(T.drop i).take m :: R, ?_, ?_, ?_, ?_, ?_⟩
      · rw [if_pos hi]
        have hcast : ((i : Int) + (m : Int)) = ((i + m : Nat) : Int) := by push_cast; rfl
        rw [hcast] at hR ⊢
        rw [hR, ← hcast, slice_window]
        simp
      · rw [List.flatten_cons, hflat, ← List.drop_drop, List.take_append_drop]
      · intro c hc
        rcases List.mem_cons.1 hc with rfl | hc
        · rw [List.length_take, List.length_drop]
          omega
        · exact hlen c hc
      · rw [List.length_cons, hcount]
        exact (ceil_step T.length i m hm hi').symm
      · intro j hj
        cases j with
        | zero => simp
        | succ j =>
          have hj' : j < R.length := by simpa using hj
          rw [List.getElem?_cons_succ, hidx j hj']
          have : i + m + j * m = i + (j + 1) * m := by ring
          rw [this]
    · have hi' : T.length ≤ i := by omega
      refine ⟨[], ?_, ?_, ?_, ?_, ?_⟩
      · rw [if_neg hi]; simp
      · rw [List.drop_eq_nil_of_le hi']; rfl
      · intro c hc; cases hc
      · have : T.length - i + m - 1 < m := by omega
        rw [Nat.div_eq_of_lt this]; rfl
      · intro j hj; simp at hj

/-- For a positive size and enough fuel, `chunkText` returns; the chunks it
returns are non-empty, at most `m` long, `⌈length / m⌉` many, concatenate to the
text, and the `j`-th is the window of the text that starts at offset `j * m`. -/
theorem chunkText_spec (T : Str) (m : Nat) (hm : 0 < m) (fuel : Nat) (hf : T.length < fuel) :
    ∃ chunks : List Str, chunkText fuel T (m : Int) = some chunks
      ∧ chunks.flatten = T
      ∧ (∀ c ∈ chunks, 0 < c.length ∧ c.length ≤ m)
      ∧ chunks.length = (T.length + m - 1) / m
      ∧ (∀ j, j < chunks.length → chunks[j]? = some ((T.drop (j * m)).take m)) := by
  obtain ⟨R, h1, h2, h3, h4, h5⟩ := chunkLoop_spec T m hm fuel 0 [] (by omega)
  exact ⟨R, by simpa [chunkText] using h1, by simpa using h2, h3, by simpa using h4,
    by simpa using h5⟩

/-- The chunks of a 7000-character text at size 3000. -/
theorem chunkText_7000 (T : Str) (hT : T.length = 7000) (fuel : Nat) (hf : T.length < fuel) :
    chunkText fuel T 3000 = some [T.take 3000, (T.drop 3000).take 3000, T.drop 6000] := by
  obtain ⟨chunks, h1, _, _, h4, h5⟩ := chunkText_spec T 3000 (by norm_num) fuel hf
  have h3 : chunks.length = 3 := by rw [h4, hT]
  have e0 := h5 0 (by omega)
  have e1 := h5 1 (by omega)
  have e2 := h5 2 (by omega)
  have hlast : (T.drop 6000).take 3000 = T.drop 6000 :=
    List.take_of_length_le (by rw [List.length_drop]; omega)
  rw [show ((3000 : Nat) : Int) = 3000 from rfl] at h1
  rw [h1]
  match chunks, h3 with
  | [a, b, c], _ =>
    simp at e0 e1 e2
    rw [e0, e1, e2, hlast]

theorem ceil_div_cast (len m : Nat) (hm : 0 < m) :
    ⌈(len : ℚ) / (m : ℚ)⌉ = (((len + m - 1) / m : Nat) : Int) := by
  have hmq : (0 : ℚ) < (m : ℚ) := by exact_mod_cast hm
  have h1 : (len + m - 1) / m * m ≤ len + m - 1 := Nat.div_mul_le_self _ _
  have h2 : len + m - 1 < ((len + m - 1) / m + 1) * m := by
    have := Nat.lt_succ_iff.2 (Nat.le_refl ((len + m - 1) / m))
    exact (Nat.div_lt_iff_lt_mul hm).1 this
  generalize (len + m - 1) / m = k at h1 h2
  rw [Int.ceil_eq_iff]
  have h3 : len ≤ k * m := by
    have : (k + 1) * m = k * m + m := by ring
    omega
  have h4 : k * m < len + m := by omega
  constructor
  · rw [lt_div_iff₀ hmq]
    have : ((k * m : Nat) : ℚ) < ((len + m : Nat) : ℚ) := by exact_mod_cast h4
    push_cast at this ⊢
    linarith
  · rw [div_le_iff₀ hmq]
    have : ((len : Nat) : ℚ) ≤ ((k * m : Nat) : ℚ) := by exact_mod_cast h3
    push_cast at this ⊢
    linarith

/-- With a size `M ≤ 0` and a non-empty text the loop index never reaches
`text.length`: the loop is still running whatever the fuel. -/
theorem chunkLoop_stuck (T : Str) (M : Int) (hM : M ≤ 0) (hT : T ≠ []) :
    ∀ (fuel : Nat) (i : Int) (acc : List Str), i ≤ 0 → chunkLoop T M fuel i acc = none := by
  have hlen : 0 < T.length := List.length_pos.2 hT
  intro fuel
  induction fuel with
  | zero => intro i acc _; rfl
  | succ fuel ih =>
    intro i acc hi
    unfold chunkLoop
    have : i < (T.length : Int) := by omega
    rw [if_pos this]
    exact ih _ _ (by omega)

/-- C1: for every text `T` and positive maximum size `M`, `chunkText(T, M)`
returns (given fuel for its `⌈len/M⌉ + 1` loop tests, `len + 1` being enough) and
the chunks it returns, concatenated in order, are exactly `T`: chunk `j` is the
window of `T` that starts at offset `j * M` and is cut at `M` characters. -/
theorem chunkText_concat (T : Str) (M : Int) (hM : 0 < M) (fuel : Nat) (hf : T.length < fuel) :
    ∃ chunks : List Str, chunkText fuel T M = some chunks ∧ chunks.flatten = T
      ∧ ∀ j, j < chunks.length →
          chunks[j]? = some ((T.drop (j * M.toNat)).take M.toNat) := by
  obtain ⟨m, rfl⟩ := Int.eq_ofNat_of_zero_le (le_of_lt hM)
  obtain ⟨chunks, h1, h2, _, _, h5⟩ := chunkText_spec T m (by exact_mod_cast hM) fuel hf
  exact ⟨chunks, h1, h2, by simpa using h5⟩

theorem chunkText_concat_witness :
    (0 : Int) < 3 ∧ "abcdefg".toList.length < 8 ∧
      ∃ chunks : List Str, chunkText 8 "abcdefg".toList 3 = some chunks
        ∧ chunks.flatten = "abcdefg".toList
        ∧ ∀ j, j < chunks.length →
            chunks[j]? = some (("abcdefg".toList.drop (j * (3 : Int).toNat)).take
              (3 : Int).toNat) :=
  ⟨by decide, by decide, chunkText_concat "abcdefg".toList 3 (by decide) 8 (by decide)⟩

/-- C2: for every text `T` and positive maximum size `M`, `chunkText(T, M)`
returns exactly `⌈len(T) / M⌉` chunks, and no chunk at all for the empty text. -/
theorem chunkText_count (T : Str) (M : Int) (hM : 0 < M) (fuel : Nat) (hf : T.length < fuel) :
    ∃ chunks : List Str, chunkText fuel T M = some chunks
      ∧ (chunks.length : Int) = ⌈(T.length : ℚ) / (M : ℚ)⌉
      ∧ (T = [] → chunks = []) := by
  obtain ⟨m, rfl⟩ := Int.eq_ofNat_of_zero_le (le_of_lt hM)
  have hm : 0 < m := by exact_mod_cast hM
  obtain ⟨chunks, h1, _, _, h4, _⟩ := chunkText_spec T m hm fuel hf
  refine ⟨chunks, h1, ?_, ?_⟩
  · have := ceil_div_cast T.length m hm
    rw [Int.cast_natCast, this, h4]
  · intro hT
    subst hT
    have : chunks.length = 0 := by
      rw [h4]
      exact Nat.div_eq_of_lt (by simp; omega)
    exact List.length_eq_zero.1 this

theorem chunkText_count_witness :
    (0 : Int) < 3 ∧ "abcdefg".toList.length < 8 ∧
      ∃ chunks : List Str, chunkText 8 "abcdefg".toList 3 = some chunks
        ∧ (chunks.length : Int) = ⌈("abcdefg".toList.length : ℚ) / ((3 : Int) : ℚ)⌉
        ∧ ("abcdefg".toList = [] → chunks = []) :=
  ⟨by decide, by decide, chunkText_count "abcdefg".toList 3 (by decide) 8 (by decide)⟩

/-- C3: for every text `T` and positive maximum size `M`, `chunkText(T, M)`
returns and every chunk it returns has length at most `M`. -/
theorem chunkText_bounded (T : Str) (M : Int) (hM : 0 < M) (fuel : Nat) (hf : T.length < fuel) :
    ∃ chunks : List Str, chunkText fuel T M = some chunks
      ∧ ∀ c ∈ chunks, (c.length : Int) ≤ M := by
  obtain ⟨m, rfl⟩ := Int.eq_ofNat_of_zero_le (le_of_lt hM)
  obtain ⟨chunks, h1, _, h3, _, _⟩ := chunkText_spec T m (by exact_mod_cast hM) fuel hf
  exact ⟨chunks, h1, fun c hc => by exact_mod_cast (h3 c hc).2⟩

theorem chunkText_bounded_witness :
    (0 : Int) < 3 ∧ "abcdefg".toList.length < 8 ∧
      ∃ chunks : List Str, chunkText 8 "abcdefg".toList 3 = some chunks
        ∧ ∀ c ∈ chunks, (c.length : Int) ≤ 3 :=
  ⟨by decide, by decide, chunkText_bounded "abcdefg".toList 3 (by decide) 8 (by decide)⟩

/-- C4, as stated, fails: with the empty text and maximum size `0`,
`chunkText` returns the empty sequence of chunks; it raises nothing. -/
theorem chunkText_zero_size_returns : chunkText 1 [] 0 = some [] := by
  decide

/-- C4, amended: `chunkText` does not validate its size. With `M ≤ 0` it returns
the empty sequence for the empty text as soon as the loop test has run once, and
for a non-empty text its loop has not exited after any number of tests, so no
chunk sequence is ever returned. -/
theorem chunkText_nonpositive (T : Str) (M : Int) (hM : M ≤ 0) (fuel : Nat) :
    chunkText (fuel + 1) T M = if T = [] then some [] else none := by
  by_cases hT : T = []
  · subst hT
    simp [chunkText, chunkLoop]
  · rw [if_neg hT]
    exact chunkLoop_stuck T M hM hT _ 0 [] (le_refl _)

theorem chunkText_nonpositive_witness :
    (-1 : Int) ≤ 0 ∧ chunkText (4 + 1) "ab".toList (-1) = none ∧
      chunkText (0 + 1) [] 0 = some [] :=
  ⟨by decide, by simpa using chunkText_nonpositive "ab".toList (-1) (by decide) 4,
    by simpa using chunkText_nonpositive [] 0 (by decide) 0⟩

/-! ## `translateChunk` -/

/-- C7: on a successful (2xx) response whose parsed body has each of the fields
`text`, `translated_text`, `translation`, `result` absent or a string,
`translateChunk` returns the first non-empty of them in that order, and the
empty string when there is none; it does not fail. -/
theorem translateChunk_flexible (cfg : Config) (net : Request → Except JSError Response)
    (chunk : Str) (opts : Opts) (resp : Response) (json : Json) (a b c d : Option Str)
    (hnet : net (requestBody cfg chunk opts) = .ok resp)
    (hok : 200 ≤ resp.status ∧ resp.status ≤ 299)
    (hjson : resp.json = .ok json)
    (ha : json.get "text" = .ok (fieldValue a))
    (hb : json.get "translated_text" = .ok (fieldValue b))
    (hc : json.get "translation" = .ok (fieldValue c))
    (hd : json.get "result" = .ok (fieldValue d)) :
    translateChunk cfg net chunk opts = .ok (.str (firstNonEmpty [a, b, c, d])) := by
  have hok' : resp.ok = true := by simp [Response.ok, hok]
  unfold translateChunk
  rw [hnet]
  simp only [hok', hjson, flexibleParse, ha, hb, hc, hd]
  cases a <;> cases b <;> cases c <;> cases d <;>
    simp [fieldValue, JSVal.or, JSVal.truthy, firstNonEmpty, bind, Except.bind, pure, Except.pure]
      <;> split_ifs <;> simp_all

theorem translateChunk_flexible_witness :
    translateChunk {} (always ⟨200, "OK".toList, .ok [],
        .ok (.obj [("translation", .str "hi".toList)])⟩) "hello".toList {}
      = .ok (.str "hi".toList) :=
  translateChunk_flexible {} _ "hello".toList {} _ (.obj [("translation", .str "hi".toList)])
    none none (some "hi".toList) none rfl (by decide) rfl rfl rfl rfl rfl

/-- C8: on a response whose status is not ok, `translateChunk` fails and never
returns a value; once the body text has been read, the error is an `Error` whose
message contains the status code in decimal, the status text and the body text. -/
theorem translateChunk_not_ok (cfg : Config) (net : Request → Except JSError Response)
    (chunk : Str) (opts : Opts) (resp : Response)
    (hnet : net (requestBody cfg chunk opts) = .ok resp) (hok : resp.ok = false) :
    (∃ err, translateChunk cfg net chunk opts = .error err)
      ∧ ∀ txt, resp.text = .ok txt →
          ∃ msg, translateChunk cfg net chunk opts = .error (.error msg)
            ∧ Nat.toDigits 10 resp.status <:+: msg
            ∧ resp.statusText <:+: msg
            ∧ txt <:+: msg := by
  unfold translateChunk
  rw [hnet]
  simp only [hok, Bool.not_false, if_true]
  constructor
  · cases resp.text with
    | error err => exact ⟨err, rfl⟩
    | ok txt => exact ⟨_, rfl⟩
  · intro txt htxt
    rw [htxt]
    refine ⟨_, rfl, ?_, ?_, ?_⟩
    · exact ⟨"Translation API error: ".toList,
        " ".toList ++ resp.statusText ++ " - ".toList ++ txt, by simp [apiErrorMessage]⟩
    · exact ⟨"Translation API error: ".toList ++ Nat.toDigits 10 resp.status ++ " ".toList,
        " - ".toList ++ txt, by simp [apiErrorMessage]⟩
    · exact ⟨"Translation API error: ".toList ++ Nat.toDigits 10 resp.status ++ " ".toList
        ++ resp.statusText ++ " - ".toList, [], by simp [apiErrorMessage]⟩

theorem translateChunk_not_ok_witness :
    ∃ msg, translateChunk {} (always ⟨500, "Internal Server Error".toList,
          .ok "rate limited".toList, .error (.rejected "not JSON".toList)⟩) "hello".toList {}
        = .error (.error msg)
      ∧ "500".toList <:+: msg
      ∧ "Internal Server Error".toList <:+: msg
      ∧ "rate limited".toList <:+: msg :=
  (translateChunk_not_ok {} (always ⟨500, "Internal Server Error".toList,
      .ok "rate limited".toList, .error (.rejected "not JSON".toList)⟩) "hello".toList {} _
    rfl rfl).2 "rate limited".toList rfl

/-! ## The loop of `translateText` -/

theorem echoFetch_spec (cfg : Config) (i : Nat) (c : Str) (engine : JSVal) :
    translateChunk cfg (echoFetch i) c { engine := engine } = .ok (.str c) := by
  cases c <;>
    simp [translateChunk, echoFetch, requestBody, Response.ok, flexibleParse, Json.get,
      List.lookup, JSVal.or, JSVal.truthy, bind, Except.bind, pure, Except.pure]

theorem joinLines_cons (c : Str) (rest : List Str) :
    joinLines (c :: rest) = c ++ (rest.map (fun d => "\n".toList ++ d)).flatten := by
  induction rest generalizing c with
  | nil => simp [joinLines, List.intercalate]
  | cons d rest ih =>
    have h := ih d
    simp only [joinLines, List.intercalate] at h ⊢
    rw [List.intersperse_cons_cons, List.flatten_cons, List.flatten_cons, h]
    simp

theorem foldl_appendLine_nonempty (rest : List Str) :
    ∀ t : Str, t ≠ [] →
      rest.foldl (fun t c => appendLine t (.str c)) t
        = t ++ (rest.map (fun d => "\n".toList ++ d)).flatten := by
  induction rest with
  | nil => intro t _; simp
  | cons c rest ih =>
    intro t ht
    rw [List.foldl_cons, ih _ (by simp [appendLine, ht])]
    simp [appendLine, ht, JSVal.toStr]

/-- Accumulating non-empty pieces with `appendLine` joins them by newlines. -/
theorem foldl_appendLine_join (chunks : List Str) (h : ∀ c ∈ chunks, c ≠ []) :
    chunks.foldl (fun t c => appendLine t (.str c)) [] = joinLines chunks := by
  cases chunks with
  | nil => rfl
  | cons c rest =>
    have hc : c ≠ [] := h c (List.mem_cons_self _ _)
    rw [List.foldl_cons, joinLines_cons]
    have : appendLine [] (.str c) = c := by simp [appendLine, JSVal.toStr]
    rw [this, foldl_appendLine_nonempty rest c hc]

/-- With an endpoint that echoes, the loop ends normally with every chunk
appended in order. -/
theorem translateLoop_echo (cfg : Config) (fetch : Fetch) (engine : JSVal) (n : Nat)
    (hecho : ∀ i c, translateChunk cfg (fetch i) c { engine := engine } = .ok (.str c)) :
    ∀ (rest : List Str) (k : Nat) (translated : Str) (pg : Page),
      (translateLoop cfg fetch engine n rest k translated pg).2
        = .ok (rest.foldl (fun t c => appendLine t (.str c)) translated) := by
  intro rest
  induction rest with
  | nil => intro k translated pg; rfl
  | cons c rest ih =>
    intro k translated pg
    unfold translateLoop
    simp only [hecho]
    rw [ih]
    rfl

/-- The widths written by the loop: one per chunk started, in order; all of
them when the loop ends normally. -/
theorem translateLoop_bar (cfg : Config) (fetch : Fetch) (engine : JSVal) (n : Nat) :
    ∀ (rest : List Str) (k : Nat) (translated : Str) (pg : Page),
      ∃ m, m ≤ rest.length
        ∧ (translateLoop cfg fetch engine n rest k translated pg).1.bar
            = pg.bar ++ (List.range' k m).map (fun j => setProgress (progressArg j n))
        ∧ (∀ out, (translateLoop cfg fetch engine n rest k translated pg).2 = .ok out
            → m = rest.length) := by
  intro rest
  induction rest with
  | nil =>
    intro k translated pg
    exact ⟨0, le_refl _, by simp [translateLoop], fun _ _ => rfl⟩
  | cons c rest ih =>
    intro k translated pg
    unfold translateLoop
    cases h : translateChunk cfg (fetch k) c { engine := engine } with
    | error err =>
      refine ⟨1, by simp, by simp, ?_⟩
      intro out hout
      simp at hout
    | ok out =>
      simp only
      obtain ⟨m, hm, hbar, hok⟩ := ih (k + 1) (appendLine translated out)
        { bar := pg.bar ++ [setProgress (progressArg k n)]
          status := pg.status ++ [statusMessage k n]
          requests := pg.requests ++ [requestBody cfg c { engine := engine }] }
      refine ⟨m + 1, by simpa using hm, ?_, ?_⟩
      · rw [hbar, List.range'_succ]
        simp
      · intro o ho
        rw [hok o ho]
        rfl

/-- A failure at chunk `i`, after successes before it, ends the loop with that
error, the requests made being those for the chunks up to `i`. -/
theorem translateLoop_fail (cfg : Config) (fetch : Fetch) (engine : JSVal) (n : Nat)
    (err : JSError) :
    ∀ (rest : List Str) (k : Nat) (translated : Str) (pg : Page) (i : Nat),
      i < rest.length →
      (∀ j, j < i → ∀ c, rest[j]? = some c →
        ∃ out, translateChunk cfg (fetch (k + j)) c { engine := engine } = .ok out) →
      (∀ c, rest[i]? = some c →
        translateChunk cfg (fetch (k + i)) c { engine := engine } = .error err) →
      ∃ pg', translateLoop cfg fetch engine n rest k translated pg = (pg', .error err)
        ∧ pg'.requests = pg.requests
            ++ (rest.take (i + 1)).map (fun c => requestBody cfg c { engine := engine }) := by
  intro rest
  induction rest with
  | nil => intro k translated pg i hi; simp at hi
  | cons c rest ih =>
    intro k translated pg i hi hprev hfail
    unfold translateLoop
    cases i with
    | zero =>
      have h0 := hfail c (by simp)
      rw [Nat.add_zero] at h0
      rw [h0]
      exact ⟨_, rfl, by simp⟩
    | succ i =>
      obtain ⟨out, hout⟩ := hprev 0 (by omega) c (by simp)
      rw [Nat.add_zero] at hout
      rw [hout]
      simp only
      obtain ⟨pg', h1, h2⟩ := ih (k + 1) (appendLine translated out)
        { bar := pg.bar ++ [setProgress (progressArg k n)]
          status := pg.status ++ [statusMessage k n]
          requests := pg.requests ++ [requestBody cfg c { engine := engine }] } i
        (by simpa using hi)
        (fun j hj d hd => by
          have := hprev (j + 1) (by omega) d (by simpa using hd)
          rwa [show k + (j + 1) = k + 1 + j by omega] at this)
        (fun d hd => by
          have := hfail d (by simpa using hd)
          rwa [show k + (i + 1) = k + 1 + i by omega] at this)
      exact ⟨pg', h1, by rw [h2]; simp⟩

/-- How `translateText` finishes once `chunkText` has returned. -/
theorem translateText_of_chunks (fuel : Nat) (cfg : Config) (fetch : Fetch) (T : Str)
    (engine : JSVal) (chunks : List Str) (hchunks : chunkText fuel T 3000 = some chunks) :
    translateText fuel cfg fetch T engine
      = some (match (translateLoop cfg fetch engine chunks.length chunks 0 [] {}).2 with
          | .error err =>
            ((translateLoop cfg fetch engine chunks.length chunks 0 [] {}).1, .error err)
          | .ok translated =>
            ({ (translateLoop cfg fetch engine chunks.length chunks 0 [] {}).1 with
                bar := (translateLoop cfg fetch engine chunks.length chunks 0 [] {}).1.bar
                  ++ [setProgress 100]
                status := (translateLoop cfg fetch engine chunks.length chunks 0 [] {}).1.status
                  ++ ["Translation complete".toList] }, .ok translated)) := by
  unfold translateText
  rw [hchunks]
  dsimp only
  rcases h : translateLoop cfg fetch engine chunks.length chunks 0 [] {} with ⟨pg, r⟩
  cases r <;> rfl

/-- A loop that ends normally makes `translateText` return its string. -/
theorem translateText_ok (fuel : Nat) (cfg : Config) (fetch : Fetch) (T : Str)
    (engine : JSVal) (chunks : List Str) (hchunks : chunkText fuel T 3000 = some chunks)
    (out : Str)
    (hloop : (translateLoop cfg fetch engine chunks.length chunks 0 [] {}).2 = .ok out) :
    ∃ pg, translateText fuel cfg fetch T engine = some (pg, .ok out) := by
  rw [translateText_of_chunks fuel cfg fetch T engine chunks hchunks, hloop]
  exact ⟨_, rfl⟩

theorem length_replicate_lt (n fuel : Nat) (c : Char) (h : n < fuel) :
    (List.replicate n c).length < fuel := by
  rw [List.length_replicate]; exact h

/-! ## Double-precision rounding -/

theorem ilog2_spec : ∀ (fuel n : Nat), 0 < n → n ≤ fuel →
    2 ^ ilog2 fuel n ≤ n ∧ n < 2 ^ (ilog2 fuel n + 1) := by
  intro fuel
  induction fuel with
  | zero => intro n h0 h; omega
  | succ fuel ih =>
    intro n h0 h
    unfold ilog2
    by_cases h2 : 2 ≤ n
    · rw [if_pos h2]
      obtain ⟨l, u⟩ := ih (n / 2) (by omega) (by omega)
      generalize ilog2 fuel (n / 2) = k at l u
      rw [pow_succ] at u ⊢
      rw [pow_succ (2 : Nat) (k + 1)]
      constructor <;> omega
    · rw [if_neg h2]
      constructor <;> simp <;> omega

theorem roundHalfEven_bounds (a b : Nat) (hb : 0 < b) :
    2 * (b * roundHalfEven a b) ≤ 2 * a + b ∧ 2 * a ≤ 2 * (b * roundHalfEven a b) + b := by
  have hdm : b * (a / b) + a % b = a := Nat.div_add_mod a b
  have hr : a % b < b := Nat.mod_lt a hb
  unfold roundHalfEven
  simp only
  generalize a / b = q at hdm
  generalize a % b = r at hdm hr
  have e1 : b * (q + 1) = b * q + b := by ring
  split_ifs <;> (try rw [e1]) <;> constructor <;> omega

theorem roundHalfEven_error (a b : Nat) (hb : 0 < b) :
    |(roundHalfEven a b : ℚ) - (a : ℚ) / (b : ℚ)| ≤ 1 / 2 := by
  obtain ⟨h1, h2⟩ := roundHalfEven_bounds a b hb
  have hbq : (0 : ℚ) < (b : ℚ) := by exact_mod_cast hb
  have h1q : (2 : ℚ) * ((b : ℚ) * (roundHalfEven a b : ℚ)) ≤ 2 * (a : ℚ) + (b : ℚ) := by
    exact_mod_cast h1
  have h2q : (2 : ℚ) * (a : ℚ) ≤ 2 * ((b : ℚ) * (roundHalfEven a b : ℚ)) + (b : ℚ) := by
    exact_mod_cast h2
  generalize (roundHalfEven a b : ℚ) = m at h1q h2q
  have ht : (a : ℚ) = (a : ℚ) / (b : ℚ) * (b : ℚ) := by field_simp
  generalize (a : ℚ) / (b : ℚ) = t at ht
  rw [ht] at h1q h2q
  rw [abs_le]
  constructor
  · by_contra hc
    push_neg at hc
    nlinarith
  · by_contra hc
    push_neg at hc
    nlinarith

theorem binade_cond (a b : Nat) (d : Int) :
    (if 0 ≤ d then b * 2 ^ d.toNat ≤ a else b ≤ a * 2 ^ (-d).toNat)
      ↔ (2 : ℚ) ^ d * (b : ℚ) ≤ (a : ℚ) := by
  by_cases hd : 0 ≤ d
  · rw [if_pos hd]
    obtain ⟨k, rfl⟩ := Int.eq_ofNat_of_zero_le hd
    rw [Int.toNat_natCast, zpow_natCast]
    constructor
    · intro h
      have : ((b * 2 ^ k : Nat) : ℚ) ≤ (a : ℚ) := by exact_mod_cast h
      push_cast at this
      linarith
    · intro h
      have : ((b * 2 ^ k : Nat) : ℚ) ≤ (a : ℚ) := by push_cast; linarith
      exact_mod_cast this
  · rw [if_neg hd]
    obtain ⟨k, hk⟩ := Int.eq_ofNat_of_zero_le (show 0 ≤ -d by omega)
    have hd' : d = -(k : Int) := by omega
    have hpos : (0 : ℚ) < (2 : ℚ) ^ k := by positivity
    rw [hk, Int.toNat_natCast, hd', zpow_neg, zpow_natCast]
    constructor
    · intro h
      have : ((b : Nat) : ℚ) ≤ ((a * 2 ^ k : Nat) : ℚ) := by exact_mod_cast h
      push_cast at this
      rw [inv_mul_le_iff₀ hpos]
      linarith
    · intro h
      rw [inv_mul_le_iff₀ hpos] at h
      have : ((b : Nat) : ℚ) ≤ ((a * 2 ^ k : Nat) : ℚ) := by push_cast; linarith
      exact_mod_cast this

/-- The exponent computed by `binade` brackets the quotient. -/
theorem binade_spec (a b : Nat) (ha : 0 < a) (hb : 0 < b) :
    (2 : ℚ) ^ binade a b * (b : ℚ) ≤ (a : ℚ)
      ∧ (a : ℚ) < (2 : ℚ) ^ (binade a b + 1) * (b : ℚ) := by
  obtain ⟨la1, la2⟩ := ilog2_spec a a ha (le_refl _)
  obtain ⟨lb1, lb2⟩ := ilog2_spec b b hb (le_refl _)
  have two : (2 : ℚ) ≠ 0 := by norm_num
  have hA1 : (2 : ℚ) ^ ilog2 a a ≤ (a : ℚ) := by exact_mod_cast la1
  have hA2 : (a : ℚ) < 2 * (2 : ℚ) ^ ilog2 a a := by
    have : ((a : Nat) : ℚ) < ((2 ^ (ilog2 a a + 1) : Nat) : ℚ) := by exact_mod_cast la2
    push_cast at this
    rw [pow_succ] at this
    linarith
  have hB1 : (2 : ℚ) ^ ilog2 b b ≤ (b : ℚ) := by exact_mod_cast lb1
  have hB2 : (b : ℚ) < 2 * (2 : ℚ) ^ ilog2 b b := by
    have : ((b : Nat) : ℚ) < ((2 ^ (ilog2 b b + 1) : Nat) : ℚ) := by exact_mod_cast lb2
    push_cast at this
    rw [pow_succ] at this
    linarith
  have hP : (0 : ℚ) < (2 : ℚ) ^ ilog2 a a := by positivity
  have hQ : (0 : ℚ) < (2 : ℚ) ^ ilog2 b b := by positivity
  have hd : (2 : ℚ) ^ ((ilog2 a a : Int) - (ilog2 b b : Int))
      = (2 : ℚ) ^ ilog2 a a / (2 : ℚ) ^ ilog2 b b := by
    rw [zpow_sub₀ two, zpow_natCast, zpow_natCast]
  have key := binade_cond a b ((ilog2 a a : Int) - (ilog2 b b : Int))
  unfold binade
  simp only
  by_cases hc : (2 : ℚ) ^ ((ilog2 a a : Int) - (ilog2 b b : Int)) * (b : ℚ) ≤ (a : ℚ)
  · rw [if_pos (key.2 hc)]
    refine ⟨hc, ?_⟩
    rw [zpow_add₀ two, zpow_one, hd]
    generalize (2 : ℚ) ^ ilog2 a a = P at *
    generalize (2 : ℚ) ^ ilog2 b b = Q at *
    generalize (a : ℚ) = A at *
    generalize (b : ℚ) = B at *
    have e : P / Q * 2 * B = 2 * P * (B / Q) := by ring
    rw [e]
    have : 1 ≤ B / Q := by rw [le_div_iff₀ hQ]; linarith
    nlinarith
  · rw [if_neg (fun h => hc (key.1 h))]
    push_neg at hc
    constructor
    · rw [zpow_sub₀ two, zpow_one, hd]
      generalize (2 : ℚ) ^ ilog2 a a = P at *
      generalize (2 : ℚ) ^ ilog2 b b = Q at *
      generalize (a : ℚ) = A at *
      generalize (b : ℚ) = B at *
      have e : P / Q / 2 * B = P * (B / (2 * Q)) := by ring
      rw [e]
      have : B / (2 * Q) ≤ 1 := by rw [div_le_iff₀ (by linarith)]; linarith
      nlinarith
    · rw [sub_add_cancel]
      exact hc

theorem scaled_error (m q S E : ℚ) (hS : 0 < S) (hES : E * S = 2 ^ 52) (hEq : E ≤ q)
    (hm : |m - q * S| ≤ 1 / 2) : |m / S - q| ≤ q / 2 ^ 53 := by
  have ht : m = m / S * S := by field_simp
  generalize m / S = t at ht
  subst ht
  rw [abs_le] at hm ⊢
  obtain ⟨h1, h2⟩ := hm
  have hE : E * S / 2 ^ 53 = 1 / 2 := by rw [hES]; norm_num
  have hmono : E / 2 ^ 53 ≤ q / 2 ^ 53 := by
    apply div_le_div_of_nonneg_right hEq; positivity
  constructor
  · by_contra hc
    push_neg at hc
    have h3 : t - q < -(E / 2 ^ 53) := by linarith
    have h4 := mul_lt_mul_of_pos_right h3 hS
    have h5 : -(E / 2 ^ 53) * S = -(E * S / 2 ^ 53) := by ring
    rw [h5, hE] at h4
    nlinarith
  · by_contra hc
    push_neg at hc
    have h3 : E / 2 ^ 53 < t - q := by linarith
    have h4 := mul_lt_mul_of_pos_right h3 hS
    have h5 : E / 2 ^ 53 * S = E * S / 2 ^ 53 := by ring
    rw [h5, hE] at h4
    nlinarith

/-- Rounding to a double moves a positive quotient by at most half a unit in the
last place: a relative error of at most `2⁻⁵³`. -/
theorem f64_error (a b : Nat) (hb : 0 < b) :
    |(f64 a b).val - (a : ℚ) / (b : ℚ)| ≤ (a : ℚ) / (b : ℚ) / 2 ^ 53 := by
  have two : (2 : ℚ) ≠ 0 := by norm_num
  have hbq : (0 : ℚ) < (b : ℚ) := by exact_mod_cast hb
  unfold f64
  by_cases ha : a = 0
  · subst ha
    simp [F64.val]
  · rw [if_neg ha]
    have ha' : 0 < a := Nat.pos_of_ne_zero ha
    obtain ⟨hE, _⟩ := binade_spec a b ha' hb
    have hEq : (2 : ℚ) ^ binade a b ≤ (a : ℚ) / (b : ℚ) := by
      rw [le_div_iff₀ hbq]; exact hE
    simp only
    by_cases he : binade a b ≤ 52
    · rw [if_pos he]
      obtain ⟨s, hs⟩ := Int.eq_ofNat_of_zero_le (show 0 ≤ 52 - binade a b by omega)
      rw [hs, Int.toNat_natCast]
      have hES : (2 : ℚ) ^ binade a b * (2 : ℚ) ^ s = 2 ^ 52 := by
        rw [← zpow_natCast (2 : ℚ) s, ← zpow_add₀ two, ← hs]
        norm_num
      have hM := roundHalfEven_error (a * 2 ^ s) b hb
      simp only [F64.val]
      push_cast at hM ⊢
      have e : (a : ℚ) * 2 ^ s / (b : ℚ) = (a : ℚ) / (b : ℚ) * 2 ^ s := by ring
      rw [e] at hM
      exact scaled_error _ _ _ _ (by positivity) hES hEq hM
    · rw [if_neg he]
      obtain ⟨s, hs⟩ := Int.eq_ofNat_of_zero_le (show 0 ≤ binade a b - 52 by omega)
      rw [hs, Int.toNat_natCast]
      have hES : (2 : ℚ) ^ binade a b * ((2 : ℚ) ^ s)⁻¹ = 2 ^ 52 := by
        rw [← zpow_natCast (2 : ℚ) s, ← zpow_neg, ← zpow_add₀ two, ← hs]
        norm_num
      have hM := roundHalfEven_error a (b * 2 ^ s) (by positivity)
      simp only [F64.val]
      push_cast at hM ⊢
      have e : (a : ℚ) / ((b : ℚ) * 2 ^ s) = (a : ℚ) / (b : ℚ) * ((2 : ℚ) ^ s)⁻¹ := by
        field_simp
      rw [e] at hM
      have := scaled_error _ _ _ _ (by positivity) hES hEq hM
      simpa using this

theorem f64_den_pos (a b : Nat) : 0 < (f64 a b).den := by
  unfold f64
  simp only
  split_ifs <;> simp

theorem div_split (N D : Nat) (hD : 0 < D) :
    (N : ℚ) / (D : ℚ) = ((N / D : Nat) : ℚ) + ((N % D : Nat) : ℚ) / (D : ℚ) := by
  have hDq : (D : ℚ) ≠ 0 := by exact_mod_cast hD.ne'
  have h : ((D * (N / D) + N % D : Nat) : ℚ) = (N : ℚ) := by rw [Nat.div_add_mod]
  push_cast at h
  field_simp
  linarith

theorem div_bracket (N D : Nat) (hD : 0 < D) :
    ((N / D : Nat) : ℚ) ≤ (N : ℚ) / (D : ℚ) ∧ (N : ℚ) / (D : ℚ) < ((N / D : Nat) : ℚ) + 1 := by
  have hDq : (0 : ℚ) < (D : ℚ) := by exact_mod_cast hD
  have hr : ((N % D : Nat) : ℚ) < (D : ℚ) := by exact_mod_cast Nat.mod_lt N hD
  have h0 : (0 : ℚ) ≤ ((N % D : Nat) : ℚ) := by positivity
  rw [div_split N D hD]
  constructor
  · have : (0 : ℚ) ≤ ((N % D : Nat) : ℚ) / (D : ℚ) := by positivity
    linarith
  · have : ((N % D : Nat) : ℚ) / (D : ℚ) < 1 := by rw [div_lt_one hDq]; exact hr
    linarith

/-- The double computed for `(i / n) * 70` is within `2⁻⁴⁵` of the exact value. -/
theorem product_error (i n : Nat) (h : i < n) :
    |((F64.div i n).mul 70).val - 70 * (i : ℚ) / (n : ℚ)| < 1 / 2 ^ 45 := by
  have hn : 0 < n := by omega
  have hnq : (0 : ℚ) < (n : ℚ) := by exact_mod_cast hn
  have h1 := f64_error i n hn
  have hden := f64_den_pos i n
  have h2 := f64_error ((f64 i n).num * 70) (f64 i n).den hden
  have hr0 : (0 : ℚ) ≤ (i : ℚ) / (n : ℚ) := by positivity
  have hr1 : (i : ℚ) / (n : ℚ) < 1 := by
    rw [div_lt_one hnq]; exact_mod_cast h
  have e1 : (((f64 i n).num * 70 : Nat) : ℚ) / ((f64 i n).den : ℚ) = 70 * (f64 i n).val := by
    simp only [F64.val]; push_cast; ring
  have e2 : 70 * (i : ℚ) / (n : ℚ) = 70 * ((i : ℚ) / (n : ℚ)) := by ring
  rw [e1] at h2
  rw [e2]
  simp only [F64.div, F64.mul]
  generalize (f64 ((f64 i n).num * 70) (f64 i n).den).val = x2 at h2 ⊢
  generalize (f64 i n).val = x1 at h1 h2
  generalize (i : ℚ) / (n : ℚ) = r at h1 hr0 hr1 ⊢
  rw [abs_le] at h1 h2
  rw [abs_lt]
  obtain ⟨a1, a2⟩ := h1
  obtain ⟨b1, b2⟩ := h2
  have c1 : r / 2 ^ 53 ≤ 1 / 2 ^ 53 := by
    apply div_le_div_of_nonneg_right (le_of_lt hr1); positivity
  have c2 : 70 * x1 / 2 ^ 53 = 70 / 2 ^ 53 * x1 := by ring
  rw [c2] at b1 b2
  norm_num at a1 a2 b1 b2 c1 ⊢
  constructor <;> linarith

theorem round_bracket (x : F64) (hd : 0 < x.den) :
    (((2 * x.num + x.den) / (2 * x.den) : Nat) : ℚ) ≤ x.val + 1 / 2
      ∧ x.val + 1 / 2 < (((2 * x.num + x.den) / (2 * x.den) : Nat) : ℚ) + 1 := by
  have hdq : (x.den : ℚ) ≠ 0 := by exact_mod_cast hd.ne'
  have e : ((2 * x.num + x.den : Nat) : ℚ) / ((2 * x.den : Nat) : ℚ) = x.val + 1 / 2 := by
    simp only [F64.val]; push_cast; field_simp; ring
  have := div_bracket (2 * x.num + x.den) (2 * x.den) (by omega)
  rwa [e] at this

theorem spec_split (i n : Nat) (hn : 0 < n) :
    70 * (i : ℚ) / (n : ℚ) + 1 / 2 = (((2 * (70 * i) + n) / (2 * n) : Nat) : ℚ)
      + (((2 * (70 * i) + n) % (2 * n) : Nat) : ℚ) / (2 * (n : ℚ)) := by
  have hnq : (n : ℚ) ≠ 0 := by exact_mod_cast hn.ne'
  have := div_split (2 * (70 * i) + n) (2 * n) (by omega)
  have hc : 2 * (n : ℚ) = ((2 * n : Nat) : ℚ) := by push_cast; rfl
  rw [hc, ← this]
  push_cast
  field_simp
  ring

/-- The argument passed to `setProgress` for chunk `i` of `n` lies in `[20, 90]`. -/
theorem progressArg_bounds (i n : Nat) (h : i < n) :
    20 ≤ progressArg i n ∧ progressArg i n ≤ 90 := by
  have hn : 0 < n := by omega
  have hnq : (0 : ℚ) < (n : ℚ) := by exact_mod_cast hn
  have herr := product_error i n h
  have hden : 0 < ((F64.div i n).mul 70).den := f64_den_pos _ _
  obtain ⟨r1, _⟩ := round_bracket _ hden
  have hx : 70 * (i : ℚ) / (n : ℚ) < 70 := by
    rw [div_lt_iff₀ hnq]
    have : (i : ℚ) < (n : ℚ) := by exact_mod_cast h
    linarith
  unfold progressArg F64.round
  generalize (2 * ((F64.div i n).mul 70).num + ((F64.div i n).mul 70).den)
    / (2 * ((F64.div i n).mul 70).den) = k2 at r1 ⊢
  rw [abs_lt] at herr
  have : (k2 : ℚ) < 71 := by
    norm_num at herr
    linarith [herr.2]
  have : k2 < 71 := by exact_mod_cast this
  omega

/-- The double-precision progress value agrees with the exact formula, except
that at an exact tie it may be one less. -/
theorem progressArg_spec (i n : Nat) (h : i < n) (hn44 : n ≤ 2 ^ 44) :
    progressArg i n = specProgress i n
      ∨ (isTie i n ∧ progressArg i n + 1 = specProgress i n) := by
  have hn : 0 < n := by omega
  have hnq : (0 : ℚ) < (n : ℚ) := by exact_mod_cast hn
  have herr := product_error i n h
  have hden : 0 < ((F64.div i n).mul 70).den := f64_den_pos _ _
  obtain ⟨r1, r2⟩ := round_bracket _ hden
  have hs := spec_split i n hn
  have hmod : (2 * (70 * i) + n) % (2 * n) < 2 * n := Nat.mod_lt _ (by omega)
  unfold progressArg specProgress F64.round isTie
  generalize (2 * ((F64.div i n).mul 70).num + ((F64.div i n).mul 70).den)
    / (2 * ((F64.div i n).mul 70).den) = k2 at r1 r2 ⊢
  generalize ((F64.div i n).mul 70).val = x2 at herr r1 r2
  generalize (2 * (70 * i) + n) / (2 * n) = k at hs ⊢
  generalize (2 * (70 * i) + n) % (2 * n) = r at hs hmod ⊢
  generalize 70 * (i : ℚ) / (n : ℚ) = x at herr hs
  rw [abs_lt] at herr
  obtain ⟨e1, e2⟩ := herr
  have hD : (0 : ℚ) < 2 * (n : ℚ) := by linarith
  have hDle : 2 * (n : ℚ) ≤ 2 ^ 45 := by
    have : ((n : Nat) : ℚ) ≤ ((2 ^ 44 : Nat) : ℚ) := by exact_mod_cast hn44
    push_cast at this
    linarith
  have hinv : (1 : ℚ) / 2 ^ 45 ≤ 1 / (2 * (n : ℚ)) := by
    apply one_div_le_one_div_of_le hD hDle
  by_cases hr : r = 0
  · subst hr
    simp only [Nat.cast_zero, zero_div, add_zero] at hs
    have a1 : (k2 : ℚ) < (k : ℚ) + 1 := by norm_num at e1 e2; linarith
    have a2 : (k : ℚ) < (k2 : ℚ) + 2 := by norm_num at e1 e2; linarith
    have a1' : k2 < k + 1 := by exact_mod_cast a1
    have a2' : k < k2 + 2 := by exact_mod_cast a2
    rcases (show k2 = k ∨ k2 + 1 = k by omega) with e | e
    · left; omega
    · right; exact ⟨rfl, by omega⟩
  · left
    have hr1 : (1 : ℚ) ≤ (r : ℚ) := by exact_mod_cast Nat.pos_of_ne_zero hr
    have hr2 : (r : ℚ) + 1 ≤ 2 * (n : ℚ) := by
      have : ((r + 1 : Nat) : ℚ) ≤ ((2 * n : Nat) : ℚ) := by exact_mod_cast hmod
      push_cast at this
      linarith
    have f1 : 1 / (2 * (n : ℚ)) ≤ (r : ℚ) / (2 * (n : ℚ)) := by
      apply div_le_div_of_nonneg_right hr1 (le_of_lt hD)
    have f2 : (r : ℚ) / (2 * (n : ℚ)) ≤ 1 - 1 / (2 * (n : ℚ)) := by
      rw [div_le_iff₀ hD]
      have : (1 - 1 / (2 * (n : ℚ))) * (2 * (n : ℚ)) = 2 * (n : ℚ) - 1 := by
        field_simp
      rw [this]
      linarith
    have a1 : (k2 : ℚ) < (k : ℚ) + 1 := by linarith
    have a2 : (k : ℚ) < (k2 : ℚ) + 1 := by linarith
    have a1' : k2 < k + 1 := by exact_mod_cast a1
    have a2' : k < k2 + 1 := by exact_mod_cast a2
    omega

theorem setProgress_progressArg (i n : Nat) (h : i < n) :
    setProgress (progressArg i n) = progressArg i n := by
  obtain ⟨h1, h2⟩ := progressArg_bounds i n h
  unfold setProgress
  omega

/-! ## `translateText` -/

/-- The widths written by a run: one per chunk started and, when the run ends
normally, one per chunk followed by `100`. -/
theorem translateText_bar (fuel : Nat) (cfg : Config) (fetch : Fetch) (T : Str)
    (engine : JSVal) (chunks : List Str) (hchunks : chunkText fuel T 3000 = some chunks) :
    ∃ pg r, translateText fuel cfg fetch T engine = some (pg, r)
      ∧ (∀ out, r = .ok out →
          pg.bar = (List.range chunks.length).map (fun j => progressArg j chunks.length)
            ++ [100])
      ∧ (∀ err, r = .error err → ∃ m, m ≤ chunks.length
          ∧ pg.bar = (List.range m).map (fun j => progressArg j chunks.length)) := by
  obtain ⟨m, hm, hbar, hok⟩ :=
    translateLoop_bar cfg fetch engine chunks.length chunks 0 [] {}
  have hmap : ∀ m, m ≤ chunks.length →
      (List.range' 0 m).map (fun j => setProgress (progressArg j chunks.length))
        = (List.range m).map (fun j => progressArg j chunks.length) := by
    intro m hm
    rw [List.range_eq_range']
    apply List.map_congr_left
    intro j hj
    have : j < m := by simpa using (List.mem_range'_1.1 hj).2
    exact setProgress_progressArg j chunks.length (by omega)
  rw [translateText_of_chunks fuel cfg fetch T engine chunks hchunks]
  rcases h : (translateLoop cfg fetch engine chunks.length chunks 0 [] {}).2 with err | out
  · refine ⟨_, _, rfl, ?_, ?_⟩
    · intro out hout; cases hout
    · intro err' _
      refine ⟨m, hm, ?_⟩
      rw [hbar, hmap m hm]
      rfl
  · refine ⟨_, _, rfl, ?_, ?_⟩
    · intro out' _
      have hm' : m = chunks.length := hok out h
      subst hm'
      show (translateLoop cfg fetch engine chunks.length chunks 0 [] {}).1.bar
        ++ [setProgress 100] = _
      rw [hbar, hmap _ (le_refl _)]
      rfl
    · intro err' herr; cases herr

/-- C5 fails on the code: for a text of 3001 characters and an endpoint whose
first answer carries no translation (so the first chunk translates to the empty
string) and whose second answer translates to `b`, `translateText` returns `b`,
with no newline between the two translations, where `join("\n", ["", "b"])` is
a newline followed by `b`. -/
theorem translateText_drops_separator :
    ∃ c0 c1 pg, chunkText 3002 (List.replicate 3001 'a') 3000 = some [c0, c1]
      ∧ translateChunk {} (blankThenB 0) c0 { engine := .undefined } = .ok (.str [])
      ∧ translateChunk {} (blankThenB 1) c1 { engine := .undefined } = .ok (.str "b".toList)
      ∧ translateText 3002 {} blankThenB (List.replicate 3001 'a') .undefined
          = some (pg, .ok "b".toList)
      ∧ joinLines [[], "b".toList] = "\nb".toList
      ∧ "b".toList ≠ joinLines [[], "b".toList] := by
  obtain ⟨chunks, h1, _, _, h4, _⟩ :=
    chunkText_spec (List.replicate 3001 'a') 3000 (by norm_num) 3002
      (length_replicate_lt _ _ _ (by decide))
  have h2 : chunks.length = 2 := by rw [h4, List.length_replicate]
  rw [show ((3000 : Nat) : Int) = 3000 from rfl] at h1
  have t0 : ∀ c, translateChunk {} (blankThenB 0) c { engine := .undefined }
      = .ok (.str []) := by
    intro c
    simp [translateChunk, blankThenB, Response.ok, flexibleParse, Json.get, List.lookup,
      JSVal.or, JSVal.truthy, bind, Except.bind, pure, Except.pure]
  have t1 : ∀ c, translateChunk {} (blankThenB 1) c { engine := .undefined }
      = .ok (.str "b".toList) := by
    intro c
    simp [translateChunk, blankThenB, Response.ok, flexibleParse, Json.get, List.lookup,
      JSVal.or, JSVal.truthy, bind, Except.bind, pure, Except.pure]
  obtain ⟨c0, c1, rfl⟩ := List.length_eq_two.1 h2
  have hloop : (translateLoop {} blankThenB .undefined [c0, c1].length [c0, c1] 0 [] {}).2
      = .ok "b".toList := by
    unfold translateLoop
    rw [t0]
    simp only
    unfold translateLoop
    rw [t1]
    rfl
  obtain ⟨pg, hrun⟩ := translateText_ok _ _ _ _ _ _ h1 _ hloop
  exact ⟨c0, c1, pg, h1, t0 c0, t1 c1, hrun, by decide, by decide⟩

/-- C6: if the translator fails on chunk `i` after succeeding on every earlier
chunk, `translateText` ends with exactly that error and no output string, and
the requests it has made are those for the chunks `0` to `i`, one each: no chunk
after `i` is sent, and none is sent twice. -/
theorem translateText_fail_fast (cfg : Config) (fetch : Fetch) (T : Str) (engine : JSVal)
    (fuel : Nat) (chunks : List Str) (hchunks : chunkText fuel T 3000 = some chunks)
    (i : Nat) (hi : i < chunks.length) (err : JSError)
    (hprev : ∀ j, j < i → ∀ c, chunks[j]? = some c →
      ∃ out, translateChunk cfg (fetch j) c { engine := engine } = .ok out)
    (hfail : ∀ c, chunks[i]? = some c →
      translateChunk cfg (fetch i) c { engine := engine } = .error err) :
    ∃ pg, translateText fuel cfg fetch T engine = some (pg, .error err)
      ∧ pg.requests
          = (chunks.take (i + 1)).map (fun c => requestBody cfg c { engine := engine }) := by
  obtain ⟨pg, h1, h2⟩ := translateLoop_fail cfg fetch engine chunks.length err chunks 0 [] {} i hi
    (fun j hj c hc => by simpa using hprev j hj c hc)
    (fun c hc => by simpa using hfail c hc)
  refine ⟨pg, ?_, by simpa using h2⟩
  rw [translateText_of_chunks fuel cfg fetch T engine chunks hchunks, h1]

theorem translateText_fail_fast_witness :
    ∃ pg, translateText 7001 {} failSecond (List.replicate 7000 'a') .undefined
        = some (pg, .error (.error
            "Translation API error: 500 Internal Server Error - rate limited".toList))
      ∧ pg.requests.length = 2 := by
  have hchunks := chunkText_7000 (List.replicate 7000 'a') (List.length_replicate _ _) 7001
    (length_replicate_lt _ _ _ (by decide))
  obtain ⟨pg, h1, h2⟩ := translateText_fail_fast {} failSecond (List.replicate 7000 'a')
    .undefined 7001 _ hchunks 1 (by decide)
    (.error "Translation API error: 500 Internal Server Error - rate limited".toList)
    (fun j hj c _ => by
      have hj0 : j = 0 := by omega
      subst hj0
      exact ⟨.str c, by simpa [failSecond] using echoFetch_spec {} 0 c .undefined⟩)
    (fun c _ => by
      simp [translateChunk, failSecond, Response.ok]
      decide)
  refine ⟨pg, h1, ?_⟩
  rw [h2]
  rfl

/-- C9: with a translator that echoes each chunk, `translateText(T)` returns the
chunks of `chunkText(T, 3000)` joined by newlines; for a text of 7000 characters
these are three chunks, of lengths 3000, 3000 and 1000. -/
theorem translateText_echo (cfg : Config) (fetch : Fetch) (T : Str) (engine : JSVal)
    (fuel : Nat) (hf : T.length < fuel)
    (hecho : ∀ i c, translateChunk cfg (fetch i) c { engine := engine } = .ok (.str c)) :
    ∃ chunks pg, chunkText fuel T 3000 = some chunks
      ∧ translateText fuel cfg fetch T engine = some (pg, .ok (joinLines chunks))
      ∧ (T.length = 7000 →
          chunks = [T.take 3000, (T.drop 3000).take 3000, T.drop 6000]
            ∧ chunks.map List.length = [3000, 3000, 1000]) := by
  obtain ⟨chunks, h1, _, h3, _, _⟩ := chunkText_spec T 3000 (by norm_num) fuel hf
  rw [show ((3000 : Nat) : Int) = 3000 from rfl] at h1
  have hne : ∀ c ∈ chunks, c ≠ [] := fun c hc => List.length_pos.1 (h3 c hc).1
  have hloop := translateLoop_echo cfg fetch engine chunks.length hecho chunks 0 [] {}
  rw [foldl_appendLine_join chunks hne] at hloop
  obtain ⟨pg, hrun⟩ := translateText_ok fuel cfg fetch T engine chunks h1 _ hloop
  refine ⟨chunks, pg, h1, hrun, ?_⟩
  · intro hT
    have h7 := chunkText_7000 T hT fuel hf
    rw [h1] at h7
    have hc : chunks = [T.take 3000, (T.drop 3000).take 3000, T.drop 6000] :=
      Option.some.inj h7
    refine ⟨hc, ?_⟩
    rw [hc]
    simp [List.length_take, List.length_drop, hT]

theorem translateText_echo_witness :
    ∃ chunks pg, chunkText 7001 (List.replicate 7000 'a') 3000 = some chunks
      ∧ translateText 7001 {} echoFetch (List.replicate 7000 'a') .undefined
          = some (pg, .ok (joinLines chunks))
      ∧ chunks.map List.length = [3000, 3000, 1000] := by
  obtain ⟨chunks, pg, h1, h2, h3⟩ := translateText_echo {} echoFetch (List.replicate 7000 'a')
    .undefined 7001 (length_replicate_lt _ _ _ (by decide))
    (fun i c => echoFetch_spec {} i c .undefined)
  exact ⟨chunks, pg, h1, h2, (h3 (List.length_replicate _ _)).2⟩

/-- C10 fails on the code as stated: in a run over 140 chunks (a text of 420000
characters, every translation succeeding) the width reported for chunk 47 is `43`,
while `20 + round((47 / 140) * 70) = 20 + round(23.5) = 44`. In double precision
`47 / 140` rounds down and the product with `70` is `23.499999999999996`. -/
theorem progress_tie_counterexample :
    ∃ chunks pg out, chunkText 420001 (List.replicate 420000 'a') 3000 = some chunks
      ∧ chunks.length = 140
      ∧ translateText 420001 {} echoFetch (List.replicate 420000 'a') .undefined
          = some (pg, .ok out)
      ∧ pg.bar[47]? = some 43
      ∧ specProgress 47 140 = 44 := by
  obtain ⟨chunks, h1, _, h3, h4, _⟩ :=
    chunkText_spec (List.replicate 420000 'a') 3000 (by norm_num) 420001
      (length_replicate_lt _ _ _ (by decide))
  rw [show ((3000 : Nat) : Int) = 3000 from rfl] at h1
  have hn : chunks.length = 140 := by rw [h4, List.length_replicate]
  obtain ⟨pg, r, hrun, hok, _⟩ := translateText_bar 420001 {} echoFetch
    (List.replicate 420000 'a') .undefined chunks h1
  have hloop := translateLoop_echo {} echoFetch .undefined chunks.length
    (fun i c => echoFetch_spec {} i c .undefined) chunks 0 [] {}
  have hr : ∃ out, r = .ok out := by
    rw [translateText_of_chunks _ _ _ _ _ _ h1, hloop] at hrun
    exact ⟨_, (Prod.mk.inj (Option.some.inj hrun)).2.symm⟩
  obtain ⟨out, rfl⟩ := hr
  refine ⟨chunks, pg, out, h1, hn, hrun, ?_, by decide⟩
  rw [hok out rfl, hn, List.getElem?_append_left
    (by rw [List.length_map, List.length_range]; decide), List.getElem?_map,
    List.getElem?_range (by decide)]
  decide

/-- C10, amended: in a run of `translateText` over `n` chunks (a text shorter than
`2 ^ 53` code units), the widths written to the bar are, in order, one value
`20 + Math.round((i / n) * 70)` per chunk started and, once the last chunk has
succeeded, `100`. The value for chunk `i` equals `20 + round(70 * i / n)` of exact
arithmetic, except that when `70 * i / n` is exactly half-way between two integers
it may be one less. Every value written lies between 0 and 100. -/
theorem translateText_progress (cfg : Config) (fetch : Fetch) (T : Str) (engine : JSVal)
    (fuel : Nat) (hf : T.length < fuel) (hlen : T.length < 2 ^ 53) :
    ∃ chunks pg r, chunkText fuel T 3000 = some chunks
      ∧ translateText fuel cfg fetch T engine = some (pg, r)
      ∧ pg.bar <+: (List.range chunks.length).map (fun i => progressArg i chunks.length)
          ++ [100]
      ∧ (∀ out, r = .ok out →
          pg.bar = (List.range chunks.length).map (fun i => progressArg i chunks.length)
            ++ [100])
      ∧ (∀ i, i < chunks.length →
          progressArg i chunks.length = specProgress i chunks.length
            ∨ (isTie i chunks.length
                ∧ progressArg i chunks.length + 1 = specProgress i chunks.length))
      ∧ (∀ v ∈ pg.bar, 0 ≤ v ∧ v ≤ 100) := by
  obtain ⟨chunks, h1, _, _, h4, _⟩ := chunkText_spec T 3000 (by norm_num) fuel hf
  rw [show ((3000 : Nat) : Int) = 3000 from rfl] at h1
  have hn44 : chunks.length ≤ 2 ^ 44 := by
    rw [h4]
    norm_num at hlen ⊢
    omega
  obtain ⟨pg, r, hrun, hok, herr⟩ := translateText_bar fuel cfg fetch T engine chunks h1
  have hpre : pg.bar <+:
      (List.range chunks.length).map (fun i => progressArg i chunks.length) ++ [100] := by
    cases r with
    | ok out => rw [hok out rfl]
    | error err =>
      obtain ⟨m, hm, hbar⟩ := herr err rfl
      rw [hbar]
      obtain ⟨d, hd⟩ := Nat.exists_eq_add_of_le hm
      rw [hd, List.range_add, List.map_append, List.append_assoc]
      exact List.prefix_append _ _
  refine ⟨chunks, pg, r, h1, hrun, hpre, hok, ?_, ?_⟩
  · intro i hi
    exact progressArg_spec i chunks.length hi hn44
  · intro v hv
    have hv' := hpre.subset hv
    rcases List.mem_append.1 hv' with h | h
    · obtain ⟨i, hi, rfl⟩ := List.mem_map.1 h
      obtain ⟨b1, b2⟩ := progressArg_bounds i chunks.length (List.mem_range.1 hi)
      omega
    · have : v = 100 := by simpa using h
      omega

theorem translateText_progress_witness :
    "xyz".toList.length < 4 ∧ "xyz".toList.length < 2 ^ 53 ∧
    ∃ chunks pg r, chunkText 4 "xyz".toList 3000 = some chunks
      ∧ translateText 4 {} echoFetch "xyz".toList .undefined = some (pg, r)
      ∧ pg.bar <+: (List.range chunks.length).map (fun i => progressArg i chunks.length)
          ++ [100]
      ∧ (∀ out, r = .ok out →
          pg.bar = (List.range chunks.length).map (fun i => progressArg i chunks.length)
            ++ [100])
      ∧ (∀ i, i < chunks.length →
          progressArg i chunks.length = specProgress i chunks.length
            ∨ (isTie i chunks.length
                ∧ progressArg i chunks.length + 1 = specProgress i chunks.length))
      ∧ (∀ v ∈ pg.bar, 0 ≤ v ∧ v ≤ 100) :=
  ⟨by decide, by decide,
    translateText_progress {} echoFetch "xyz".toList .undefined 4 (by decide) (by decide)⟩

end Aki
